import Mathlib

/-!
Shallow embedding of `crates/project-expander/src/tasks_expander.rs` (the task
expansion stage of the moon build tool), together with theorems checking the
natural-language specification against it.

External collaborators (the token expander, `parse_task_args`, the project
query function, `substitute_env_var`, env-file loading from disk) live outside
the embedded file; they are carried as abstract function parameters in a
`Collaborators` bundle, so every theorem quantifies over their behaviour unless
a claim pins one of them down (those pinned definitions are marked
"Modelled from the spec").
-/

namespace Moon

/-- Addressing scope of a target (`moon_task::TargetScope`): `:task`, `^:task`,
`~:task`, `locator:task`, `#tag:task`. -/
inductive TargetScope where
  | all
  | deps
  | ownSelf
  | project (locator : String)
  | tag (tag : String)
deriving DecidableEq, Repr

/-- A (possibly fully-qualified) task reference: scope plus task id. -/
structure Target where
  scope : TargetScope
  task_id : String
deriving DecidableEq, Repr

/-- `Target::new(project_id, task_id)` builds a project-scoped target. -/
def Target.new (project_id : String) (task_id : String) : Target :=
  { scope := TargetScope.project project_id, task_id := task_id }

/-- `moon_config::TaskArgs`: either absent, a single raw string, or a list. -/
inductive TaskArgs where
  | none
  | str (arg : String)
  | list (args : List String)
deriving DecidableEq, Repr

/-- Environment mapping, `FxHashMap<String, String>` in the source; modelled as
an association list queried through `List.lookup`. -/
abbrev EnvMap := List (String × String)

/-- `moon_config::TaskDependencyConfig`: a declared (or resolved) dependency. -/
structure TaskDependencyConfig where
  args : TaskArgs
  env : EnvMap
  optional : Option Bool
  target : Target
deriving DecidableEq, Repr

/-- The task option fields read by the expander. -/
structure TaskOptions where
  allow_failure : Bool
  run_in_ci : Bool
  persistent : Bool
  env_files : Option (List String)
deriving DecidableEq, Repr

/-- `moon_task::Task`: the fields touched by the expansion pipeline.
`FxHashSet<_>` fields become `Finset String`. -/
structure Task where
  id : String
  target : Target
  command : String
  script : Option String
  args : List String
  env : EnvMap
  deps : List TaskDependencyConfig
  inputs : List String
  outputs : List String
  input_env : Finset String
  input_files : Finset String
  input_globs : Finset String
  output_files : Finset String
  output_globs : Finset String
  options : TaskOptions
deriving DecidableEq

/-- Modelled from the spec: `Task::is_persistent` (moon_task crate, outside
`src/`) reports whether the task is long-running, i.e. its persistent option. -/
def Task.is_persistent (t : Task) : Bool := t.options.persistent

/-- `moon_project::Project`: the fields read by the expander. The
locator-matching predicate (`matches_locator`) is carried as a function. -/
structure Project where
  id : String
  source : String
  dependency_ids : List String
  tasks : List (String × Task)
  matches_locator : String → Bool

/-- `TasksExpanderError` plus a constructor absorbing opaque collaborator
(`miette`) failures. -/
inductive ExpandError where
  | unknownTarget (dep : Target) (task : Target)
  | allowFailureDepRequirement (dep : Target) (task : Target)
  | runInCiDepRequirement (dep : Target) (task : Target)
  | persistentDepRequirement (dep : Target) (task : Target)
  | unsupportedTargetScopeInDeps (dep : Target) (task : Target)
  | invalidEnvFile (path : String) (error : String)
  | collaboratorFailure (message : String)
deriving DecidableEq, Repr

/-- Result of token expansion of input/output patterns: environment-variable
names, literal files, and glob patterns. -/
structure ExpandedResult where
  env : List String
  files : List String
  globs : List String
deriving DecidableEq, Repr

/-- Model of one configured env file as seen through the file system and the
dotenv parser: missing on disk, or a sequence of parsed `KEY=VALUE` lines
followed by an optional parse error (an unreadable file is `parsed [] (some e)`). -/
inductive EnvFileContent where
  | missing
  | parsed (lines : List (String × String)) (error : Option String)
deriving DecidableEq, Repr

/-- The external collaborators consumed by the expander, bundled: the token
expander's entry points, `parse_task_args`, the env substitution primitive
`substitute_env_var(base, value, env)`, env-file loading (file system plus
dotenv parser), and env-file path resolution (source dir, workspace root,
declared file). -/
structure Collaborators where
  token_expand_command : Task → Except ExpandError String
  token_expand_script : Task → Except ExpandError String
  token_expand_args : Task → Except ExpandError (List String)
  token_expand_args_with_task : Task → List String → Except ExpandError (List String)
  token_expand_env : Task → Except ExpandError EnvMap
  token_expand_env_with_task : Task → EnvMap → Except ExpandError EnvMap
  token_expand_inputs : Task → Except ExpandError ExpandedResult
  token_expand_outputs : Task → Except ExpandError ExpandedResult
  parse_task_args : TaskArgs → Except ExpandError (List String)
  substitute_env_var : String → String → EnvMap → String
  load_env_file : String → EnvFileContent
  resolve_env_path : String → String → String → String

/-- `ExpanderContext`: owning project, project query function, workspace root,
CI-relationship check flag. -/
structure ExpanderContext where
  project : Project
  query : String → Except ExpandError (List Project)
  workspace_root : String
  check_ci_relationships : Bool

/-- Modelled from the spec: the Environment Substitutor's whole-map form
`substitute_env_vars` (expander_context.rs, outside `src/`) rewrites every
value through `substitute_env_var` against the full mapping. -/
def substitute_env_vars (col : Collaborators) (env : EnvMap) : EnvMap :=
  env.map (fun kv => (kv.1, col.substitute_env_var kv.1 kv.2 env))

/-- Hash-map insert with overwrite: one binding per key, newest first. -/
def envInsert (m : EnvMap) (k v : String) : EnvMap :=
  (k, v) :: m.filter (fun kv => kv.1 != k)

/-- `env.entry(key).or_insert(val)`: keep an existing binding, else add one. -/
def envEntryOrInsert (m : EnvMap) (k v : String) : EnvMap :=
  match List.lookup k m with
  | some _ => m
  | Option.none => m ++ [(k, v)]

/-- Insert every parsed `KEY=VALUE` line in order, overwriting earlier keys. -/
def envInsertAll (m : EnvMap) (lines : List (String × String)) : EnvMap :=
  lines.foldl (fun acc kv => envInsert acc kv.1 kv.2) m

/-- The insert-if-absent merge of the loaded file map into the task env
(`for (key, val) in merged_env_vars { env.entry(key).or_insert(val) }`). -/
def envMergeDefaults (env : EnvMap) (merged : EnvMap) : EnvMap :=
  merged.foldl (fun acc kv => envEntryOrInsert acc kv.1 kv.2) env

/-- Kernel-reducible lexicographic comparison on character lists. -/
def charListLE : List Char → List Char → Bool
  | [], _ => true
  | _ :: _, [] => false
  | a :: as, b :: bs =>
    if a.toNat < b.toNat then true
    else if b.toNat < a.toNat then false
    else charListLE as bs

/-- Lexicographic string comparison used to model `Vec::sort` on ids. -/
def strLE (a b : String) : Bool := charListLE a.data b.data

/-- Insertion step of the sort. -/
def insertSorted (x : String) : List String → List String
  | [] => [x]
  | y :: ys => if strLE x y then x :: y :: ys else y :: insertSorted x ys

/-- `dep_ids.sort()`: ascending sort of project ids. -/
def sortStrings : List String → List String
  | [] => []
  | x :: xs => insertSorted x (sortStrings xs)

/-- The resolved dependency entry built on acceptance inside
`check_and_push_dep`: an explicit no-args sentinel when the expanded args are
empty, the substituted env, the declared optional flag carried verbatim, and
the fully-qualified candidate target. -/
def resolve_dep_entry (col : Collaborators) (dep_project : Project)
    (dep : TaskDependencyConfig) (dep_args : List String) (dep_env : EnvMap) :
    TaskDependencyConfig :=
  { args := if dep_args.isEmpty then TaskArgs.none else TaskArgs.list dep_args
    env := substitute_env_vars col dep_env
    optional := dep.optional
    target := Target.new dep_project.id dep.target.task_id }

/-- The `check_and_push_dep` closure of `expand_deps` with the captured state
(`deps` accumulator, dependent `task`, context and collaborators) made
explicit: validate one candidate project for one declared dependency and, if
accepted and not already present, append the resolved entry. -/
def check_and_push_dep (ctx : ExpanderContext) (col : Collaborators) (task : Task)
    (dep_project : Project) (dep : TaskDependencyConfig) (skip_if_missing : Bool)
    (deps : List TaskDependencyConfig) : Except ExpandError (List TaskDependencyConfig) :=
  match List.lookup dep.target.task_id dep_project.tasks with
  | Option.none =>
    if skip_if_missing then .ok deps
    else .error (.unknownTarget (Target.new dep_project.id dep.target.task_id) task.target)
  | some dep_task =>
    if dep_task.options.allow_failure then
      .error (.allowFailureDepRequirement dep_task.target task.target)
    else if ctx.check_ci_relationships && !dep_task.options.run_in_ci
        && task.options.run_in_ci then
      .error (.runInCiDepRequirement dep_task.target task.target)
    else if dep_task.is_persistent && !task.is_persistent then
      .error (.persistentDepRequirement dep_task.target task.target)
    else
      match col.parse_task_args dep.args with
      | .error e => .error e
      | .ok dep_args0 =>
        match col.token_expand_env_with_task task dep.env with
        | .error e => .error e
        | .ok dep_env =>
          match (if dep_args0.isEmpty then Except.ok dep_args0
                 else col.token_expand_args_with_task task dep_args0) with
          | .error e => .error e
          | .ok dep_args =>
            if resolve_dep_entry col dep_project dep dep_args dep_env ∈ deps then .ok deps
            else .ok (deps ++ [resolve_dep_entry col dep_project dep dep_args dep_env])

/-- `for dep_project in results { check_and_push_dep(...)? }` — the candidate
loop of the `Deps` and `Project` scopes. -/
def push_deps_for (ctx : ExpanderContext) (col : Collaborators) (task : Task)
    (dep : TaskDependencyConfig) (skip_if_missing : Bool) :
    List Project → List TaskDependencyConfig → Except ExpandError (List TaskDependencyConfig)
  | [], deps => .ok deps
  | p :: ps, deps =>
    match check_and_push_dep ctx col task p dep skip_if_missing deps with
    | .error e => .error e
    | .ok deps' => push_deps_for ctx col task dep skip_if_missing ps deps'

/-- The candidate loop of the `Tag` scope: skip the owning project itself. -/
def push_deps_for_tag (ctx : ExpanderContext) (col : Collaborators) (task : Task)
    (dep : TaskDependencyConfig) (skip_if_missing : Bool) :
    List Project → List TaskDependencyConfig → Except ExpandError (List TaskDependencyConfig)
  | [], deps => .ok deps
  | p :: ps, deps =>
    if p.id = ctx.project.id then
      push_deps_for_tag ctx col task dep skip_if_missing ps deps
    else
      match check_and_push_dep ctx col task p dep skip_if_missing deps with
      | .error e => .error e
      | .ok deps' => push_deps_for_tag ctx col task dep skip_if_missing ps deps'

/-- The body of `expand_deps`' `for dep in &task.deps` loop: resolve one
declared dependency's scope and validate every candidate. -/
def expand_dep_one (ctx : ExpanderContext) (col : Collaborators) (task : Task)
    (deps : List TaskDependencyConfig) (dep : TaskDependencyConfig) :
    Except ExpandError (List TaskDependencyConfig) :=
  match dep.target.scope with
  | .all => .error (.unsupportedTargetScopeInDeps dep.target task.target)
  | .deps =>
    match sortStrings ctx.project.dependency_ids with
    | [] => .ok deps
    | [dep_id] =>
      match ctx.query ("project=" ++ dep_id) with
      | .error e => .error e
      | .ok results => push_deps_for ctx col task dep (dep.optional.getD true) results deps
    | dep_ids =>
      match ctx.query ("project=" ++ ("[" ++ String.intercalate "," dep_ids ++ "]")) with
      | .error e => .error e
      | .ok results => push_deps_for ctx col task dep (dep.optional.getD true) results deps
  | .ownSelf =>
    if dep.target.task_id = task.id then .ok deps
    else check_and_push_dep ctx col task ctx.project dep (dep.optional.getD false) deps
  | .project locator =>
    if ctx.project.matches_locator locator then
      if dep.target.task_id = task.id then .ok deps
      else check_and_push_dep ctx col task ctx.project dep false deps
    else
      match ctx.query ("project=" ++ locator) with
      | .error e => .error e
      | .ok results =>
        if results.isEmpty then .error (.unknownTarget dep.target task.target)
        else push_deps_for ctx col task dep false results deps
  | .tag t =>
    match ctx.query ("tag=" ++ t) with
    | .error e => .error e
    | .ok results => push_deps_for_tag ctx col task dep (dep.optional.getD true) results deps

/-- The whole declared-dependency loop, threading the accumulator. -/
def expand_deps_list (ctx : ExpanderContext) (col : Collaborators) (task : Task) :
    List TaskDependencyConfig → List TaskDependencyConfig →
    Except ExpandError (List TaskDependencyConfig)
  | [], deps => .ok deps
  | d :: ds, deps =>
    match expand_dep_one ctx col task deps d with
    | .error e => .error e
    | .ok deps' => expand_deps_list ctx col task ds deps'

/-- `TasksExpander::expand_deps`. An error carries the task as it stands at the
propagation point; `task.deps` is only assigned after the loop completes. -/
def expand_deps (ctx : ExpanderContext) (col : Collaborators) (task : Task) :
    Except (ExpandError × Task) Task :=
  if task.deps.isEmpty then .ok task
  else
    match expand_deps_list ctx col task task.deps [] with
    | .error e => .error (e, task)
    | .ok new_deps => .ok { task with deps := new_deps }

/-- `TasksExpander::expand_command`: token expansion, then env substitution. -/
def expand_command (col : Collaborators) (task : Task) :
    Except (ExpandError × Task) Task :=
  match col.token_expand_command task with
  | .error e => .error (e, task)
  | .ok command => .ok { task with command := col.substitute_env_var "" command task.env }

/-- `TasksExpander::expand_script`: token expansion, then env substitution. -/
def expand_script (col : Collaborators) (task : Task) :
    Except (ExpandError × Task) Task :=
  match col.token_expand_script task with
  | .error e => .error (e, task)
  | .ok script => .ok { task with script := some (col.substitute_env_var "" script task.env) }

/-- `TasksExpander::expand_args`: no-op on empty args, otherwise the token
expander's result is written back. -/
def expand_args (col : Collaborators) (task : Task) :
    Except (ExpandError × Task) Task :=
  if task.args.isEmpty then .ok task
  else
    match col.token_expand_args task with
    | .error e => .error (e, task)
    | .ok args => .ok { task with args := args }

/-- Modelled from the spec: the Token Expander's args path (token_expander.rs,
outside `src/`) resolves placeholders in each argument and then applies the
Environment Substitutor against the task's current env mapping. -/
def specTokenArgs (col : Collaborators) (resolvePlaceholders : String → String)
    (env : EnvMap) (args : List String) : List String :=
  args.map (fun arg => col.substitute_env_var "" (resolvePlaceholders arg) env)

/-- The env-file loading loop of `expand_env`: skip missing files with only a
warning, parse existing ones into the merged map with later lines and later
files overwriting, abort on the first parse error. -/
def load_env_files (col : Collaborators) :
    List String → EnvMap → Except ExpandError EnvMap
  | [], acc => .ok acc
  | p :: rest, acc =>
    match col.load_env_file p with
    | .missing => load_env_files col rest acc
    | .parsed lines err =>
      let acc' := envInsertAll acc lines
      match err with
      | some msg => .error (.invalidEnvFile p msg)
      | Option.none => load_env_files col rest acc'

/-- `TasksExpander::expand_env`: token-expand the declared env, load optional
env files (insert-if-absent under the declared env), then run the final
substitution pass. `task.env` is only assigned on full success. -/
def expand_env (ctx : ExpanderContext) (col : Collaborators) (task : Task) :
    Except (ExpandError × Task) Task :=
  match col.token_expand_env task with
  | .error e => .error (e, task)
  | .ok env0 =>
    match task.options.env_files with
    | Option.none => .ok { task with env := substitute_env_vars col env0 }
    | some env_files =>
      let env_paths := env_files.map
        (col.resolve_env_path ctx.project.source ctx.workspace_root)
      match load_env_files col env_paths [] with
      | .error e => .error (e, task)
      | .ok merged =>
        .ok { task with env := substitute_env_vars col (envMergeDefaults env0 merged) }

/-- `TasksExpander::expand_inputs`: extend the input sets with the token
expander's partitioned result. -/
def expand_inputs (col : Collaborators) (task : Task) :
    Except (ExpandError × Task) Task :=
  if task.inputs.isEmpty then .ok task
  else
    match col.token_expand_inputs task with
    | .error e => .error (e, task)
    | .ok result =>
      .ok { task with
        input_env := task.input_env ∪ result.env.toFinset
        input_files := task.input_files ∪ result.files.toFinset
        input_globs := task.input_globs ∪ result.globs.toFinset }

/-- The literal-file loop of `expand_outputs`: remove each output file from
`input_files` if present, then insert it into `output_files`. -/
def reconcile_output_files (files : List String) (task : Task) : Task :=
  files.foldl
    (fun t file =>
      let t' := if file ∈ t.input_files
        then { t with input_files := t.input_files.erase file } else t
      { t' with output_files := insert file t'.output_files })
    task

/-- The glob loop of `expand_outputs`: same removal/insert rule on the glob
sets. -/
def reconcile_output_globs (globs : List String) (task : Task) : Task :=
  globs.foldl
    (fun t glob =>
      let t' := if glob ∈ t.input_globs
        then { t with input_globs := t.input_globs.erase glob } else t
      { t' with output_globs := insert glob t'.output_globs })
    task

/-- `TasksExpander::expand_outputs`: expand output patterns, then reconcile
files before globs. -/
def expand_outputs (col : Collaborators) (task : Task) :
    Except (ExpandError × Task) Task :=
  if task.outputs.isEmpty then .ok task
  else
    match col.token_expand_outputs task with
    | .error e => .error (e, task)
    | .ok result =>
      .ok (reconcile_output_globs result.globs (reconcile_output_files result.files task))



theorem check_and_push_dep_ok_inversion {ctx : ExpanderContext} {col : Collaborators}
    {task : Task} {dep_project : Project} {dep : TaskDependencyConfig}
    {skip_if_missing : Bool} {deps deps' : List TaskDependencyConfig}
    (h : check_and_push_dep ctx col task dep_project dep skip_if_missing deps = .ok deps') :
    (List.lookup dep.target.task_id dep_project.tasks = Option.none ∧
      skip_if_missing = true ∧ deps' = deps) ∨
    (∃ dep_task dep_args0 dep_env dep_args,
      List.lookup dep.target.task_id dep_project.tasks = some dep_task ∧
      ¬dep_task.options.allow_failure = true ∧
      ¬(ctx.check_ci_relationships && !dep_task.options.run_in_ci && task.options.run_in_ci) = true ∧
      ¬(dep_task.is_persistent && !task.is_persistent) = true ∧
      col.parse_task_args dep.args = .ok dep_args0 ∧
      col.token_expand_env_with_task task dep.env = .ok dep_env ∧
      (if dep_args0.isEmpty then Except.ok dep_args0
        else col.token_expand_args_with_task task dep_args0) = .ok dep_args ∧
      deps' = (if resolve_dep_entry col dep_project dep dep_args dep_env ∈ deps then deps
        else deps ++ [resolve_dep_entry col dep_project dep dep_args dep_env])) := by
  unfold check_and_push_dep at h
  split at h
  · rename_i heq
    split at h
    · rename_i hc
      exact Or.inl ⟨heq, hc, (Except.ok.inj h).symm⟩
    · exact absurd h (by simp)
  · rename_i dep_task heq
    split at h
    · exact absurd h (by simp)
    · rename_i h1
      split at h
      · exact absurd h (by simp)
      · rename_i h2
        split at h
        · exact absurd h (by simp)
        · rename_i h3
          split at h
          · exact absurd h (by simp)
          · rename_i dep_args0 hp
            split at h
            · exact absurd h (by simp)
            · rename_i dep_env he
              split at h
              · exact absurd h (by simp)
              · rename_i dep_args ha
                refine Or.inr ⟨dep_task, dep_args0, dep_env, dep_args,
                  heq, h1, h2, h3, hp, he, ha, ?_⟩
                split at h
                · rename_i hmem
                  rw [if_pos hmem]
                  exact (Except.ok.inj h).symm
                · rename_i hmem
                  rw [if_neg hmem]
                  exact (Except.ok.inj h).symm

theorem check_and_push_dep_eval_missing {ctx : ExpanderContext} {col : Collaborators}
    {task : Task} {dep_project : Project} {dep : TaskDependencyConfig}
    (skip_if_missing : Bool) (deps : List TaskDependencyConfig)
    (hl : List.lookup dep.target.task_id dep_project.tasks = Option.none) :
    check_and_push_dep ctx col task dep_project dep skip_if_missing deps =
      (if skip_if_missing then .ok deps
       else .error (.unknownTarget (Target.new dep_project.id dep.target.task_id) task.target)) := by
  unfold check_and_push_dep
  simp only [hl]

theorem check_and_push_dep_eval_found {ctx : ExpanderContext} {col : Collaborators}
    {task : Task} {dep_project : Project} {dep : TaskDependencyConfig}
    {dep_task : Task} {dep_args0 dep_args : List String} {dep_env : EnvMap}
    (skip_if_missing : Bool) (deps : List TaskDependencyConfig)
    (hl : List.lookup dep.target.task_id dep_project.tasks = some dep_task)
    (h1 : ¬dep_task.options.allow_failure = true)
    (h2 : ¬(ctx.check_ci_relationships && !dep_task.options.run_in_ci && task.options.run_in_ci) = true)
    (h3 : ¬(dep_task.is_persistent && !task.is_persistent) = true)
    (hp : col.parse_task_args dep.args = .ok dep_args0)
    (he : col.token_expand_env_with_task task dep.env = .ok dep_env)
    (ha : (if dep_args0.isEmpty then Except.ok dep_args0
        else col.token_expand_args_with_task task dep_args0) = .ok dep_args) :
    check_and_push_dep ctx col task dep_project dep skip_if_missing deps =
      (if resolve_dep_entry col dep_project dep dep_args dep_env ∈ deps then .ok deps
       else .ok (deps ++ [resolve_dep_entry col dep_project dep dep_args dep_env])) := by
  unfold check_and_push_dep
  simp only [hl]
  rw [if_neg h1, if_neg h2, if_neg h3]
  simp only [hp, he, ha]



theorem check_and_push_dep_ok_shape {ctx : ExpanderContext} {col : Collaborators}
    {task : Task} {dep_project : Project} {dep : TaskDependencyConfig}
    {skip_if_missing : Bool} {deps deps' : List TaskDependencyConfig}
    (h : check_and_push_dep ctx col task dep_project dep skip_if_missing deps = .ok deps') :
    deps' = deps ∨
      ∃ nd, deps' = deps ++ [nd] ∧ nd ∉ deps ∧
        nd.target = Target.new dep_project.id dep.target.task_id ∧
        nd.optional = dep.optional := by
  rcases check_and_push_dep_ok_inversion h with ⟨_, _, rfl⟩ |
    ⟨dep_task, dep_args0, dep_env, dep_args, hl, h1, h2, h3, hp, he, ha, hd⟩
  · exact Or.inl rfl
  · by_cases hmem : resolve_dep_entry col dep_project dep dep_args dep_env ∈ deps
    · rw [if_pos hmem] at hd
      exact Or.inl hd
    · rw [if_neg hmem] at hd
      exact Or.inr ⟨_, hd, hmem, rfl, rfl⟩

theorem check_and_push_dep_stable {ctx : ExpanderContext} {col : Collaborators}
    {task : Task} {dep_project : Project} {dep : TaskDependencyConfig}
    {skip_if_missing : Bool} {deps deps' : List TaskDependencyConfig}
    (h : check_and_push_dep ctx col task dep_project dep skip_if_missing deps = .ok deps')
    (b : List TaskDependencyConfig) (hsub : ∀ x ∈ deps', x ∈ b) :
    check_and_push_dep ctx col task dep_project dep skip_if_missing b = .ok b := by
  rcases check_and_push_dep_ok_inversion h with ⟨hl, hc, rfl⟩ |
    ⟨dep_task, dep_args0, dep_env, dep_args, hl, h1, h2, h3, hp, he, ha, hd⟩
  · rw [check_and_push_dep_eval_missing _ _ hl, if_pos hc]
  · rw [check_and_push_dep_eval_found _ _ hl h1 h2 h3 hp he ha]
    have hb : resolve_dep_entry col dep_project dep dep_args dep_env ∈ b := by
      refine hsub _ ?_
      rw [hd]
      by_cases hmem : resolve_dep_entry col dep_project dep dep_args dep_env ∈ deps
      · rwa [if_pos hmem]
      · rw [if_neg hmem]
        exact List.mem_append_right _ (List.mem_singleton.mpr rfl)
    rw [if_pos hb]

/-- On success `push_deps_for` only appends entries. -/
theorem push_deps_for_append {ctx : ExpanderContext} {col : Collaborators}
    {task : Task} {dep : TaskDependencyConfig} {skip_if_missing : Bool} :
    ∀ {ps : List Project} {deps deps' : List TaskDependencyConfig},
    push_deps_for ctx col task dep skip_if_missing ps deps = .ok deps' →
    ∃ t, deps' = deps ++ t := by
  intro ps
  induction ps with
  | nil =>
    intro deps deps' h
    exact ⟨[], by simp [push_deps_for] at h; simp [h.symm]⟩
  | cons p ps ih =>
    intro deps deps' h
    unfold push_deps_for at h
    split at h
    · exact absurd h (by simp)
    · rename_i mid hmid
      rcases ih h with ⟨t, rfl⟩
      rcases check_and_push_dep_ok_shape hmid with rfl | ⟨nd, rfl, _, _, _⟩
      · exact ⟨t, rfl⟩
      · exact ⟨[nd] ++ t, by simp⟩

/-- Accepted entries of `push_deps_for` come from the accumulator or resolve a
candidate project of the given list with the declared optional flag. -/
theorem push_deps_for_mem {ctx : ExpanderContext} {col : Collaborators}
    {task : Task} {dep : TaskDependencyConfig} {skip_if_missing : Bool} :
    ∀ {ps : List Project} {deps deps' : List TaskDependencyConfig},
    push_deps_for ctx col task dep skip_if_missing ps deps = .ok deps' →
    ∀ x ∈ deps', x ∈ deps ∨ ∃ p ∈ ps,
      x.target = Target.new p.id dep.target.task_id ∧ x.optional = dep.optional := by
  intro ps
  induction ps with
  | nil =>
    intro deps deps' h x hx
    simp [push_deps_for] at h
    exact Or.inl (h ▸ hx)
  | cons p ps ih =>
    intro deps deps' h x hx
    unfold push_deps_for at h
    split at h
    · exact absurd h (by simp)
    · rename_i mid hmid
      rcases ih h x hx with hmem | ⟨q, hq, ht, ho⟩
      · rcases check_and_push_dep_ok_shape hmid with rfl | ⟨nd, rfl, _, hnt, hno⟩
        · exact Or.inl hmem
        · rcases List.mem_append.mp hmem with hmem | hmem
          · exact Or.inl hmem
          · rcases List.mem_singleton.mp hmem with rfl
            exact Or.inr ⟨p, List.mem_cons_self _ _, hnt, hno⟩
      · exact Or.inr ⟨q, List.mem_cons_of_mem _ hq, ht, ho⟩

/-- `push_deps_for` preserves duplicate-freeness of the accumulator. -/
theorem push_deps_for_nodup {ctx : ExpanderContext} {col : Collaborators}
    {task : Task} {dep : TaskDependencyConfig} {skip_if_missing : Bool} :
    ∀ {ps : List Project} {deps deps' : List TaskDependencyConfig},
    push_deps_for ctx col task dep skip_if_missing ps deps = .ok deps' →
    deps.Nodup → deps'.Nodup := by
  intro ps
  induction ps with
  | nil =>
    intro deps deps' h hn
    simp [push_deps_for] at h
    exact h ▸ hn
  | cons p ps ih =>
    intro deps deps' h hn
    unfold push_deps_for at h
    split at h
    · exact absurd h (by simp)
    · rename_i mid hmid
      refine ih h ?_
      rcases check_and_push_dep_ok_shape hmid with rfl | ⟨nd, rfl, hnmem, _, _⟩
      · exact hn
      · simp [List.nodup_append, hn, hnmem]

/-- A second pass of `push_deps_for` over a list whose accepted entries are all
already present leaves the accumulator untouched. -/
theorem push_deps_for_stable {ctx : ExpanderContext} {col : Collaborators}
    {task : Task} {dep : TaskDependencyConfig} {skip_if_missing : Bool} :
    ∀ {ps : List Project} {deps deps' : List TaskDependencyConfig},
    push_deps_for ctx col task dep skip_if_missing ps deps = .ok deps' →
    ∀ b, (∀ x ∈ deps', x ∈ b) →
    push_deps_for ctx col task dep skip_if_missing ps b = .ok b := by
  intro ps
  induction ps with
  | nil =>
    intro deps deps' _ b _
    simp [push_deps_for]
  | cons p ps ih =>
    intro deps deps' h b hsub
    unfold push_deps_for at h ⊢
    split at h
    · exact absurd h (by simp)
    · rename_i mid hmid
      have hmid_sub : ∀ x ∈ mid, x ∈ b := by
        rcases push_deps_for_append h with ⟨t, rfl⟩
        intro x hx
        exact hsub x (List.mem_append_left _ hx)
      rw [check_and_push_dep_stable hmid b hmid_sub]
      exact ih h b hsub



/-- On success `push_deps_for_tag` only appends entries. -/
theorem push_deps_for_tag_append {ctx : ExpanderContext} {col : Collaborators}
    {task : Task} {dep : TaskDependencyConfig} {skip_if_missing : Bool} :
    ∀ {ps : List Project} {deps deps' : List TaskDependencyConfig},
    push_deps_for_tag ctx col task dep skip_if_missing ps deps = .ok deps' →
    ∃ t, deps' = deps ++ t := by
  intro ps
  induction ps with
  | nil =>
    intro deps deps' h
    exact ⟨[], by simp [push_deps_for_tag] at h; simp [h.symm]⟩
  | cons p ps ih =>
    intro deps deps' h
    unfold push_deps_for_tag at h
    split at h
    · exact ih h
    · split at h
      · exact absurd h (by simp)
      · rename_i mid hmid
        rcases ih h with ⟨t, rfl⟩
        rcases check_and_push_dep_ok_shape hmid with rfl | ⟨nd, rfl, _, _, _⟩
        · exact ⟨t, rfl⟩
        · exact ⟨[nd] ++ t, by simp⟩

/-- Accepted entries of the tag loop come from the accumulator or resolve a
candidate project that is not the owning project. -/
theorem push_deps_for_tag_mem {ctx : ExpanderContext} {col : Collaborators}
    {task : Task} {dep : TaskDependencyConfig} {skip_if_missing : Bool} :
    ∀ {ps : List Project} {deps deps' : List TaskDependencyConfig},
    push_deps_for_tag ctx col task dep skip_if_missing ps deps = .ok deps' →
    ∀ x ∈ deps', x ∈ deps ∨ ∃ p ∈ ps, p.id ≠ ctx.project.id ∧
      x.target = Target.new p.id dep.target.task_id ∧ x.optional = dep.optional := by
  intro ps
  induction ps with
  | nil =>
    intro deps deps' h x hx
    simp [push_deps_for_tag] at h
    exact Or.inl (h ▸ hx)
  | cons p ps ih =>
    intro deps deps' h x hx
    unfold push_deps_for_tag at h
    split at h
    · rcases ih h x hx with hmem | ⟨q, hq, hne, ht, ho⟩
      · exact Or.inl hmem
      · exact Or.inr ⟨q, List.mem_cons_of_mem _ hq, hne, ht, ho⟩
    · rename_i hne
      split at h
      · exact absurd h (by simp)
      · rename_i mid hmid
        rcases ih h x hx with hmem | ⟨q, hq, hqne, ht, ho⟩
        · rcases check_and_push_dep_ok_shape hmid with rfl | ⟨nd, rfl, _, hnt, hno⟩
          · exact Or.inl hmem
          · rcases List.mem_append.mp hmem with hmem | hmem
            · exact Or.inl hmem
            · rcases List.mem_singleton.mp hmem with rfl
              exact Or.inr ⟨p, List.mem_cons_self _ _, hne, hnt, hno⟩
        · exact Or.inr ⟨q, List.mem_cons_of_mem _ hq, hqne, ht, ho⟩

/-- The tag loop preserves duplicate-freeness of the accumulator. -/
theorem push_deps_for_tag_nodup {ctx : ExpanderContext} {col : Collaborators}
    {task : Task} {dep : TaskDependencyConfig} {skip_if_missing : Bool} :
    ∀ {ps : List Project} {deps deps' : List TaskDependencyConfig},
    push_deps_for_tag ctx col task dep skip_if_missing ps deps = .ok deps' →
    deps.Nodup → deps'.Nodup := by
  intro ps
  induction ps with
  | nil =>
    intro deps deps' h hn
    simp [push_deps_for_tag] at h
    exact h ▸ hn
  | cons p ps ih =>
    intro deps deps' h hn
    unfold push_deps_for_tag at h
    split at h
    · exact ih h hn
    · split at h
      · exact absurd h (by simp)
      · rename_i mid hmid
        refine ih h ?_
        rcases check_and_push_dep_ok_shape hmid with rfl | ⟨nd, rfl, hnmem, _, _⟩
        · exact hn
        · simp [List.nodup_append, hn, hnmem]

/-- A second pass of the tag loop adds nothing new. -/
theorem push_deps_for_tag_stable {ctx : ExpanderContext} {col : Collaborators}
    {task : Task} {dep : TaskDependencyConfig} {skip_if_missing : Bool} :
    ∀ {ps : List Project} {deps deps' : List TaskDependencyConfig},
    push_deps_for_tag ctx col task dep skip_if_missing ps deps = .ok deps' →
    ∀ b, (∀ x ∈ deps', x ∈ b) →
    push_deps_for_tag ctx col task dep skip_if_missing ps b = .ok b := by
  intro ps
  induction ps with
  | nil =>
    intro deps deps' _ b _
    simp [push_deps_for_tag]
  | cons p ps ih =>
    intro deps deps' h b hsub
    unfold push_deps_for_tag at h ⊢
    split at h
    · rename_i hid
      rw [if_pos hid]
      exact ih h b hsub
    · rename_i hne
      split at h
      · exact absurd h (by simp)
      · rename_i mid hmid
        have hmid_sub : ∀ x ∈ mid, x ∈ b := by
          rcases push_deps_for_tag_append h with ⟨t, rfl⟩
          intro x hx
          exact hsub x (List.mem_append_left _ hx)
        rw [if_neg hne]
        simp only [check_and_push_dep_stable hmid b hmid_sub]
        exact ih h b hsub



theorem Target.new_ne_of_project_ne {a b ta tb : String} (h : a ≠ b) :
    Target.new a ta ≠ Target.new b tb := by
  intro hc
  exact h (TargetScope.project.inj (congrArg Target.scope hc))

theorem Target.new_ne_of_task_ne {a b ta tb : String} (h : ta ≠ tb) :
    Target.new a ta ≠ Target.new b tb := by
  intro hc
  exact h (congrArg Target.task_id hc)

/-- On success, resolving one declared dependency only appends entries. -/
theorem expand_dep_one_append {ctx : ExpanderContext} {col : Collaborators} {task : Task}
    {deps deps' : List TaskDependencyConfig} {d : TaskDependencyConfig}
    (h : expand_dep_one ctx col task deps d = .ok deps') : ∃ t, deps' = deps ++ t := by
  unfold expand_dep_one at h
  split at h
  · exact absurd h (by simp)
  · split at h
    · exact ⟨[], by simp [(Except.ok.inj h).symm]⟩
    · split at h
      · exact absurd h (by simp)
      · exact push_deps_for_append h
    · split at h
      · exact absurd h (by simp)
      · exact push_deps_for_append h
  · split at h
    · exact ⟨[], by simp [(Except.ok.inj h).symm]⟩
    · rcases check_and_push_dep_ok_shape h with rfl | ⟨nd, rfl, _, _, _⟩
      · exact ⟨[], by simp⟩
      · exact ⟨[nd], rfl⟩
  · split at h
    · split at h
      · exact ⟨[], by simp [(Except.ok.inj h).symm]⟩
      · rcases check_and_push_dep_ok_shape h with rfl | ⟨nd, rfl, _, _, _⟩
        · exact ⟨[], by simp⟩
        · exact ⟨[nd], rfl⟩
    · split at h
      · exact absurd h (by simp)
      · split at h
        · exact absurd h (by simp)
        · exact push_deps_for_append h
  · split at h
    · exact absurd h (by simp)
    · exact push_deps_for_tag_append h

/-- Resolving one declared dependency preserves duplicate-freeness. -/
theorem expand_dep_one_nodup {ctx : ExpanderContext} {col : Collaborators} {task : Task}
    {deps deps' : List TaskDependencyConfig} {d : TaskDependencyConfig}
    (h : expand_dep_one ctx col task deps d = .ok deps') (hn : deps.Nodup) : deps'.Nodup := by
  have hshape : ∀ {a a' : List TaskDependencyConfig} {p : Project} {skip : Bool},
      check_and_push_dep ctx col task p d skip a = .ok a' → a.Nodup → a'.Nodup := by
    intro a a' p skip hc hna
    rcases check_and_push_dep_ok_shape hc with rfl | ⟨nd, rfl, hnmem, _, _⟩
    · exact hna
    · simp [List.nodup_append, hna, hnmem]
  unfold expand_dep_one at h
  split at h
  · exact absurd h (by simp)
  · split at h
    · exact (Except.ok.inj h) ▸ hn
    · split at h
      · exact absurd h (by simp)
      · exact push_deps_for_nodup h hn
    · split at h
      · exact absurd h (by simp)
      · exact push_deps_for_nodup h hn
  · split at h
    · exact (Except.ok.inj h) ▸ hn
    · exact hshape h hn
  · split at h
    · split at h
      · exact (Except.ok.inj h) ▸ hn
      · exact hshape h hn
    · split at h
      · exact absurd h (by simp)
      · split at h
        · exact absurd h (by simp)
        · exact push_deps_for_nodup h hn
  · split at h
    · exact absurd h (by simp)
    · exact push_deps_for_tag_nodup h hn

/-- Re-resolving a declared dependency whose accepted entries are all already
present leaves the accumulator untouched. -/
theorem expand_dep_one_stable {ctx : ExpanderContext} {col : Collaborators} {task : Task}
    {deps deps' : List TaskDependencyConfig} {d : TaskDependencyConfig}
    (h : expand_dep_one ctx col task deps d = .ok deps')
    (b : List TaskDependencyConfig) (hsub : ∀ x ∈ deps', x ∈ b) :
    expand_dep_one ctx col task b d = .ok b := by
  unfold expand_dep_one at h ⊢
  split at h
  · exact absurd h (by simp)
  all_goals rename_i hscope
  · split at h
    · rfl
    · split at h
      · exact absurd h (by simp)
      · exact push_deps_for_stable h b hsub
    · split at h
      · exact absurd h (by simp)
      · exact push_deps_for_stable h b hsub
  · split at h
    · rename_i hid
      rw [if_pos hid]
    · rename_i hid
      rw [if_neg hid]
      exact check_and_push_dep_stable h b hsub
  · split at h
    · rename_i hmatch
      rw [if_pos hmatch]
      split at h
      · rename_i hid
        rw [if_pos hid]
      · rename_i hid
        rw [if_neg hid]
        exact check_and_push_dep_stable h b hsub
    · rename_i hmatch
      rw [if_neg hmatch]
      split at h
      · exact absurd h (by simp)
      · split at h
        · exact absurd h (by simp)
        · rename_i hne
          rw [if_neg hne]
          exact push_deps_for_stable h b hsub
  · split at h
    · exact absurd h (by simp)
    · exact push_deps_for_tag_stable h b hsub



/-- Under a project-query collaborator that never returns the owning project
for a `project=` query, resolving one declared dependency never introduces an
entry whose target is the dependent task's own target. -/
theorem expand_dep_one_noself {ctx : ExpanderContext} {col : Collaborators} {task : Task}
    {deps deps' : List TaskDependencyConfig} {d : TaskDependencyConfig}
    (hq : ∀ s ps, ctx.query ("project=" ++ s) = .ok ps → ∀ p ∈ ps, p.id ≠ ctx.project.id)
    (htarget : task.target = Target.new ctx.project.id task.id)
    (h : expand_dep_one ctx col task deps d = .ok deps')
    (hinv : ∀ x ∈ deps, x.target ≠ task.target) :
    ∀ x ∈ deps', x.target ≠ task.target := by
  unfold expand_dep_one at h
  split at h
  · exact absurd h (by simp)
  · split at h
    · exact (Except.ok.inj h) ▸ hinv
    · split at h
      · exact absurd h (by simp)
      · rename_i results hquery
        intro x hx
        rcases push_deps_for_mem h x hx with hmem | ⟨p, hp, ht, _⟩
        · exact hinv x hmem
        · rw [ht, htarget]
          exact Target.new_ne_of_project_ne (hq _ _ hquery p hp)
    · split at h
      · exact absurd h (by simp)
      · rename_i results hquery
        intro x hx
        rcases push_deps_for_mem h x hx with hmem | ⟨p, hp, ht, _⟩
        · exact hinv x hmem
        · rw [ht, htarget]
          exact Target.new_ne_of_project_ne (hq _ _ hquery p hp)
  · split at h
    · exact (Except.ok.inj h) ▸ hinv
    · rename_i hid
      intro x hx
      rcases check_and_push_dep_ok_shape h with rfl | ⟨nd, rfl, _, hnt, _⟩
      · exact hinv x hx
      · rcases List.mem_append.mp hx with hmem | hmem
        · exact hinv x hmem
        · rcases List.mem_singleton.mp hmem with rfl
          rw [hnt, htarget]
          exact Target.new_ne_of_task_ne hid
  · split at h
    · split at h
      · exact (Except.ok.inj h) ▸ hinv
      · rename_i hid
        intro x hx
        rcases check_and_push_dep_ok_shape h with rfl | ⟨nd, rfl, _, hnt, _⟩
        · exact hinv x hx
        · rcases List.mem_append.mp hx with hmem | hmem
          · exact hinv x hmem
          · rcases List.mem_singleton.mp hmem with rfl
            rw [hnt, htarget]
            exact Target.new_ne_of_task_ne hid
    · split at h
      · exact absurd h (by simp)
      · rename_i results hquery
        split at h
        · exact absurd h (by simp)
        · intro x hx
          rcases push_deps_for_mem h x hx with hmem | ⟨p, hp, ht, _⟩
          · exact hinv x hmem
          · rw [ht, htarget]
            exact Target.new_ne_of_project_ne (hq _ _ hquery p hp)
  · split at h
    · exact absurd h (by simp)
    · intro x hx
      rcases push_deps_for_tag_mem h x hx with hmem | ⟨p, _, hne, ht, _⟩
      · exact hinv x hmem
      · rw [ht, htarget]
        exact Target.new_ne_of_project_ne hne



/-- The declared-dependency loop only appends to the accumulator. -/
theorem expand_deps_list_append {ctx : ExpanderContext} {col : Collaborators} {task : Task} :
    ∀ {ds : List TaskDependencyConfig} {acc out : List TaskDependencyConfig},
    expand_deps_list ctx col task ds acc = .ok out → ∃ t, out = acc ++ t := by
  intro ds
  induction ds with
  | nil =>
    intro acc out h
    simp [expand_deps_list] at h
    exact ⟨[], by simp [h.symm]⟩
  | cons d ds ih =>
    intro acc out h
    unfold expand_deps_list at h
    split at h
    · exact absurd h (by simp)
    · rename_i mid hmid
      rcases expand_dep_one_append hmid with ⟨t₁, rfl⟩
      rcases ih h with ⟨t₂, rfl⟩
      exact ⟨t₁ ++ t₂, by simp⟩

/-- The declared-dependency loop preserves duplicate-freeness. -/
theorem expand_deps_list_nodup {ctx : ExpanderContext} {col : Collaborators} {task : Task} :
    ∀ {ds : List TaskDependencyConfig} {acc out : List TaskDependencyConfig},
    expand_deps_list ctx col task ds acc = .ok out → acc.Nodup → out.Nodup := by
  intro ds
  induction ds with
  | nil =>
    intro acc out h hn
    simp [expand_deps_list] at h
    exact h ▸ hn
  | cons d ds ih =>
    intro acc out h hn
    unfold expand_deps_list at h
    split at h
    · exact absurd h (by simp)
    · rename_i mid hmid
      exact ih h (expand_dep_one_nodup hmid hn)

/-- Splitting the declared-dependency loop across an append. -/
theorem expand_deps_list_concat {ctx : ExpanderContext} {col : Collaborators} {task : Task} :
    ∀ {l₁ l₂ : List TaskDependencyConfig} {acc mid : List TaskDependencyConfig},
    expand_deps_list ctx col task l₁ acc = .ok mid →
    expand_deps_list ctx col task (l₁ ++ l₂) acc = expand_deps_list ctx col task l₂ mid := by
  intro l₁
  induction l₁ with
  | nil =>
    intro l₂ acc mid h
    simp [expand_deps_list] at h
    rw [List.nil_append, h]
  | cons d ds ih =>
    intro l₂ acc mid h
    unfold expand_deps_list at h
    split at h
    · exact absurd h (by simp)
    · rename_i m hm
      rw [List.cons_append]
      conv_lhs => unfold expand_deps_list
      simp only [hm]
      exact ih h

/-- A second pass of the declared-dependency loop over entries already
accounted for leaves the accumulator untouched. -/
theorem expand_deps_list_stable {ctx : ExpanderContext} {col : Collaborators} {task : Task} :
    ∀ {ds : List TaskDependencyConfig} {acc out : List TaskDependencyConfig},
    expand_deps_list ctx col task ds acc = .ok out →
    ∀ b, (∀ x ∈ out, x ∈ b) → expand_deps_list ctx col task ds b = .ok b := by
  intro ds
  induction ds with
  | nil =>
    intro acc out _ b _
    simp [expand_deps_list]
  | cons d ds ih =>
    intro acc out h b hsub
    unfold expand_deps_list at h ⊢
    split at h
    · exact absurd h (by simp)
    · rename_i mid hmid
      have hmid_sub : ∀ x ∈ mid, x ∈ b := by
        rcases expand_deps_list_append h with ⟨t, rfl⟩
        intro x hx
        exact hsub x (List.mem_append_left _ hx)
      simp only [expand_dep_one_stable hmid b hmid_sub]
      exact ih h b hsub

/-- The no-self-target invariant is preserved across the whole loop. -/
theorem expand_deps_list_noself {ctx : ExpanderContext} {col : Collaborators} {task : Task}
    (hq : ∀ s ps, ctx.query ("project=" ++ s) = .ok ps → ∀ p ∈ ps, p.id ≠ ctx.project.id)
    (htarget : task.target = Target.new ctx.project.id task.id) :
    ∀ {ds : List TaskDependencyConfig} {acc out : List TaskDependencyConfig},
    expand_deps_list ctx col task ds acc = .ok out →
    (∀ x ∈ acc, x.target ≠ task.target) → ∀ x ∈ out, x.target ≠ task.target := by
  intro ds
  induction ds with
  | nil =>
    intro acc out h hinv
    simp [expand_deps_list] at h
    exact h ▸ hinv
  | cons d ds ih =>
    intro acc out h hinv
    unfold expand_deps_list at h
    split at h
    · exact absurd h (by simp)
    · rename_i mid hmid
      exact ih h (expand_dep_one_noself hq htarget hmid hinv)




/-- Claim C2: after a successful `expand_deps`, no resolved entry targets the
dependent task's own target, assuming the project-query collaborator never
returns the owning project for a `project=` query and the task's stored target
is its fully-qualified own target. -/
theorem expand_deps_no_self_cycles {ctx : ExpanderContext} {col : Collaborators}
    {task task' : Task}
    (hq : ∀ s ps, ctx.query ("project=" ++ s) = .ok ps → ∀ p ∈ ps, p.id ≠ ctx.project.id)
    (htarget : task.target = Target.new ctx.project.id task.id)
    (h : expand_deps ctx col task = .ok task') :
    ∀ d ∈ task'.deps, d.target ≠ task.target := by
  unfold expand_deps at h
  split at h
  · rename_i hempty
    cases Except.ok.inj h
    intro d hd
    rw [List.isEmpty_iff] at hempty
    rw [hempty] at hd
    exact absurd hd (List.not_mem_nil d)
  · split at h
    · exact absurd h (by simp)
    · rename_i nd hnd
      cases Except.ok.inj h
      intro d hd
      exact expand_deps_list_noself hq htarget hnd
        (fun x hx => absurd hx (List.not_mem_nil x)) d hd

/-- Claim C3: a successful `expand_deps` yields a duplicate-free list, earlier
declarations' accepted entries form a prefix of later states (first-seen order),
and re-processing the whole declared list a second time adds nothing. -/
theorem expand_deps_ordered_dedup {ctx : ExpanderContext} {col : Collaborators}
    {task task' : Task}
    (h : expand_deps ctx col task = .ok task') :
    task'.deps.Nodup ∧
    (∀ l₁ l₂ mid out, expand_deps_list ctx col task l₁ [] = .ok mid →
        expand_deps_list ctx col task (l₁ ++ l₂) [] = .ok out → ∃ t, out = mid ++ t) ∧
    expand_deps_list ctx col task (task.deps ++ task.deps) [] = .ok task'.deps := by
  unfold expand_deps at h
  split at h
  · rename_i hempty
    cases Except.ok.inj h
    rw [List.isEmpty_iff] at hempty
    refine ⟨by rw [hempty]; exact List.nodup_nil, ?_, ?_⟩
    · intro l₁ l₂ mid out h₁ h₂
      rw [expand_deps_list_concat h₁] at h₂
      exact expand_deps_list_append h₂
    · rw [hempty]
      rfl
  · split at h
    · exact absurd h (by simp)
    · rename_i nd hnd
      cases Except.ok.inj h
      refine ⟨expand_deps_list_nodup hnd List.nodup_nil, ?_, ?_⟩
      · intro l₁ l₂ mid out h₁ h₂
        rw [expand_deps_list_concat h₁] at h₂
        exact expand_deps_list_append h₂
      · rw [expand_deps_list_concat hnd]
        exact expand_deps_list_stable hnd nd (fun x hx => hx)

/-- Claim C5: when `expand_deps` fails, the task carried at the propagation
point still has the original `deps` list — no partial list is committed. -/
theorem expand_deps_error_no_commit {ctx : ExpanderContext} {col : Collaborators}
    {task t : Task} {e : ExpandError}
    (h : expand_deps ctx col task = .error (e, t)) : t.deps = task.deps := by
  unfold expand_deps at h
  split at h
  · exact absurd h (by simp)
  · split at h
    · have h2 := Except.error.inj h
      rw [Prod.mk.injEq] at h2
      rw [← h2.2]
    · exact absurd h (by simp)

/-- Claim C9: an entry accepted by `check_and_push_dep` stores the declared
tri-state optional flag verbatim, and when the candidate task exists the
outcome does not depend on the skip-if-missing flag at all. -/
theorem check_and_push_dep_optional_verbatim {ctx : ExpanderContext}
    {col : Collaborators} {task : Task} {dep_project : Project}
    {dep : TaskDependencyConfig} {dep_task : Task}
    {skip_if_missing skip₁ skip₂ : Bool} {deps deps' : List TaskDependencyConfig}
    (hfound : List.lookup dep.target.task_id dep_project.tasks = some dep_task)
    (hok : check_and_push_dep ctx col task dep_project dep skip_if_missing deps = .ok deps') :
    (deps' = deps ∨ ∃ nd, deps' = deps ++ [nd] ∧ nd.optional = dep.optional) ∧
    check_and_push_dep ctx col task dep_project dep skip₁ deps
      = check_and_push_dep ctx col task dep_project dep skip₂ deps := by
  constructor
  · rcases check_and_push_dep_ok_shape hok with rfl | ⟨nd, rfl, _, _, hno⟩
    · exact Or.inl rfl
    · exact Or.inr ⟨nd, rfl, hno⟩
  · unfold check_and_push_dep
    simp only [hfound]

/-- Claim C1 (amended): for a `Project(locator)` scope dependency whose locator
matches the owning project and whose task id differs from the current task's,
the skip-if-missing flag is hardcoded to `false`: a missing target task raises
`UnknownTarget` regardless of the declared `optional` value. -/
theorem expand_deps_project_self_ignores_optional {ctx : ExpanderContext}
    {col : Collaborators} {task : Task} {dep : TaskDependencyConfig} {locator : String}
    (hdeps : task.deps = [dep])
    (hscope : dep.target.scope = TargetScope.project locator)
    (hmatch : ctx.project.matches_locator locator = true)
    (hne : ¬dep.target.task_id = task.id)
    (hmissing : List.lookup dep.target.task_id ctx.project.tasks = Option.none) :
    expand_deps ctx col task =
      .error (.unknownTarget (Target.new ctx.project.id dep.target.task_id) task.target, task) := by
  unfold expand_deps
  rw [hdeps]
  simp only [List.isEmpty_cons, Bool.false_eq_true, if_false]
  unfold expand_deps_list
  unfold expand_dep_one
  simp only [hscope]
  rw [if_pos hmatch, if_neg hne]
  rw [check_and_push_dep_eval_missing false [] hmissing]
  simp only [Bool.false_eq_true, if_false]



/-- Collaborators that expand everything to itself and find no env files. -/
def trivialCol : Collaborators :=
  { token_expand_command := fun t => .ok t.command
    token_expand_script := fun t => .ok (t.script.getD "")
    token_expand_args := fun t => .ok t.args
    token_expand_args_with_task := fun _ a => .ok a
    token_expand_env := fun t => .ok t.env
    token_expand_env_with_task := fun _ e => .ok e
    token_expand_inputs := fun _ => .ok { env := [], files := [], globs := [] }
    token_expand_outputs := fun _ => .ok { env := [], files := [], globs := [] }
    parse_task_args := fun a =>
      match a with
      | .none => .ok []
      | .str s => .ok [s]
      | .list l => .ok l
    substitute_env_var := fun _ v _ => v
    load_env_file := fun _ => .missing
    resolve_env_path := fun _ _ f => f }

/-- Default task options for the concrete scenarios. -/
def okOptions : TaskOptions :=
  { allow_failure := false, run_in_ci := true, persistent := false, env_files := Option.none }

/-- A blank task of project `pid` with task id `tid`. -/
def baseTask (pid tid : String) : Task :=
  { id := tid, target := Target.new pid tid, command := "noop", script := Option.none
    args := [], env := [], deps := [], inputs := [], outputs := []
    input_env := ∅, input_files := ∅, input_globs := ∅
    output_files := ∅, output_globs := ∅, options := okOptions }

/-- A `Project("p")` scope dependency on task `b`, explicitly optional. -/
def projSelfDep : TaskDependencyConfig :=
  { args := TaskArgs.none, env := [], optional := some true
    target := { scope := TargetScope.project "p", task_id := "b" } }

/-- Task `p:a` declaring the optional self-project dependency on missing `b`. -/
def taskSelfOpt : Task := { baseTask "p" "a" with deps := [projSelfDep] }

/-- Project `p` that has no task `b`. -/
def projNoB : Project :=
  { id := "p", source := "p", dependency_ids := [], tasks := [("a", taskSelfOpt)]
    matches_locator := fun l => l == "p" }

/-- Context over `projNoB` with an empty query. -/
def ctxNoB : ExpanderContext :=
  { project := projNoB, query := fun _ => .ok [], workspace_root := "/ws"
    check_ci_relationships := false }

/-- Claim C1, counterexample: with `optional = some true` and the target task
missing from the owning (locator-matched) project, `expand_deps` raises
`UnknownTarget` instead of skipping the dependency. -/
theorem expand_deps_project_self_optional_counterexample :
    expand_deps ctxNoB trivialCol taskSelfOpt
      = .error (.unknownTarget (Target.new "p" "b") (Target.new "p" "a"), taskSelfOpt) := rfl

/-- Claim C1, witness for the amended statement at a concrete input. -/
theorem expand_deps_project_self_ignores_optional_witness :
    expand_deps ctxNoB trivialCol taskSelfOpt
      = .error (.unknownTarget (Target.new "p" "b") taskSelfOpt.target, taskSelfOpt) :=
  expand_deps_project_self_ignores_optional
    (show taskSelfOpt.deps = [projSelfDep] from rfl)
    (show projSelfDep.target.scope = TargetScope.project "p" from rfl)
    (show ctxNoB.project.matches_locator "p" = true from rfl)
    (show ¬projSelfDep.target.task_id = taskSelfOpt.id by decide)
    (show List.lookup projSelfDep.target.task_id ctxNoB.project.tasks = Option.none from rfl)

/-- An `OwnSelf` scope dependency on task `b` with `optional` unset. -/
def ownDepB : TaskDependencyConfig :=
  { args := TaskArgs.none, env := [], optional := Option.none
    target := { scope := TargetScope.ownSelf, task_id := "b" } }

/-- Task `p:a` declaring the own-self dependency on `b`. -/
def taskWithOwnDep : Task := { baseTask "p" "a" with deps := [ownDepB] }

/-- Task `p:b`. -/
def taskB : Task := baseTask "p" "b"

/-- Project `p` holding both tasks. -/
def projAB : Project :=
  { id := "p", source := "p", dependency_ids := [], tasks := [("a", taskWithOwnDep), ("b", taskB)]
    matches_locator := fun l => l == "p" }

/-- Context over `projAB` with an empty query. -/
def ctxAB : ExpanderContext :=
  { project := projAB, query := fun _ => .ok [], workspace_root := "/ws"
    check_ci_relationships := false }

/-- The resolved form of `ownDepB`. -/
def resolvedOwnB : TaskDependencyConfig :=
  { args := TaskArgs.none, env := [], optional := Option.none, target := Target.new "p" "b" }

/-- Task `p:a` after dependency expansion. -/
def taskWithOwnDepResolved : Task := { taskWithOwnDep with deps := [resolvedOwnB] }

/-- Claim C2, witness at a concrete input. -/
theorem expand_deps_no_self_cycles_witness :
    (expand_deps ctxAB trivialCol taskWithOwnDep = .ok taskWithOwnDepResolved) ∧
    (∀ d ∈ taskWithOwnDepResolved.deps, d.target ≠ taskWithOwnDep.target) := by
  refine ⟨rfl, expand_deps_no_self_cycles ?_
    (show taskWithOwnDep.target = Target.new ctxAB.project.id taskWithOwnDep.id from rfl)
    (show expand_deps ctxAB trivialCol taskWithOwnDep = .ok taskWithOwnDepResolved from rfl)⟩
  intro s ps hq p hp
  cases Except.ok.inj hq
  exact absurd hp (List.not_mem_nil p)

/-- Claim C3, witness at a concrete input. -/
theorem expand_deps_ordered_dedup_witness :
    taskWithOwnDepResolved.deps.Nodup ∧
    expand_deps_list ctxAB trivialCol taskWithOwnDep
      (taskWithOwnDep.deps ++ taskWithOwnDep.deps) [] = .ok taskWithOwnDepResolved.deps := by
  have h := expand_deps_ordered_dedup
    (show expand_deps ctxAB trivialCol taskWithOwnDep = .ok taskWithOwnDepResolved from rfl)
  exact ⟨h.1, h.2.2⟩

/-- An `All` scope dependency, unsupported in deps. -/
def allDep : TaskDependencyConfig :=
  { args := TaskArgs.none, env := [], optional := Option.none
    target := { scope := TargetScope.all, task_id := "x" } }

/-- Task `p:c` declaring the unsupported dependency. -/
def taskWithAllDep : Task := { baseTask "p" "c" with deps := [allDep] }

/-- Claim C5, witness: a failing expansion leaves the declared deps in place. -/
theorem expand_deps_error_no_commit_witness :
    taskWithAllDep.deps = taskWithAllDep.deps :=
  expand_deps_error_no_commit
    (show expand_deps ctxAB trivialCol taskWithAllDep
      = .error (.unsupportedTargetScopeInDeps { scope := TargetScope.all, task_id := "x" }
          taskWithAllDep.target, taskWithAllDep) from rfl)

/-- Claim C9, witness at a concrete input. -/
theorem check_and_push_dep_optional_verbatim_witness :
    (([resolvedOwnB] : List TaskDependencyConfig) = [] ∨
      ∃ nd, [resolvedOwnB] = [] ++ [nd] ∧ nd.optional = ownDepB.optional) ∧
    check_and_push_dep ctxAB trivialCol taskWithOwnDep projAB ownDepB true []
      = check_and_push_dep ctxAB trivialCol taskWithOwnDep projAB ownDepB false [] :=
  check_and_push_dep_optional_verbatim
    (show List.lookup ownDepB.target.task_id projAB.tasks = some taskB from rfl)
    (show check_and_push_dep ctxAB trivialCol taskWithOwnDep projAB ownDepB true []
      = .ok [resolvedOwnB] from rfl)




/-- Looking a key up after a hash-map insert: the inserted key hits the new
value, other keys are untouched. -/
theorem lookup_envInsert (m : EnvMap) (k v k' : String) :
    List.lookup k' (envInsert m k v) = if k' = k then some v else List.lookup k' m := by
  unfold envInsert
  by_cases hk : k' = k
  · subst hk
    simp [List.lookup]
  · rw [if_neg hk]
    have hb : (k' == k) = false := by
      simp [hk]
    simp only [List.lookup, hb]
    induction m with
    | nil => simp [List.filter]
    | cons kv rest ih =>
      by_cases hh : kv.1 = k
      · have hflt : (kv.1 != k) = false := by simp [hh]
        have hne2 : (k' == kv.1) = false := by
          simp [hh, hk]
        cases kv with
        | mk a b =>
          simp only [List.filter, hflt] at *
          simp only [List.lookup, hne2] at *
          exact ih
      · have hflt : (kv.1 != k) = true := by simp [hh]
        cases kv with
        | mk a b =>
          simp only [List.filter, hflt] at *
          by_cases hka : k' = a
          · subst hka
            simp [List.lookup]
          · have : (k' == a) = false := by simp [hka]
            simp only [List.lookup, this] at *
            exact ih



/-- Association lookup distributes over append, first list winning. -/
theorem lookup_append (l₁ l₂ : List (String × String)) (k : String) :
    List.lookup k (l₁ ++ l₂) =
      match List.lookup k l₁ with
      | some v => some v
      | Option.none => List.lookup k l₂ := by
  induction l₁ with
  | nil => simp [List.lookup]
  | cons kv rest ih =>
    cases kv with
    | mk a b =>
      by_cases hka : k = a
      · subst hka
        simp [List.lookup]
      · have hb : (k == a) = false := by simp [hka]
        simp only [List.cons_append, List.lookup, hb]
        exact ih

/-- Inserting a sequence of lines in order: the last binding of a key in the
sequence wins, otherwise the original map answers. -/
theorem lookup_envInsertAll (lines : List (String × String)) (m : EnvMap) (k : String) :
    List.lookup k (envInsertAll m lines) =
      match List.lookup k lines.reverse with
      | some v => some v
      | Option.none => List.lookup k m := by
  induction lines generalizing m with
  | nil => simp [envInsertAll]
  | cons kv rest ih =>
    cases kv with
    | mk a b =>
      have hstep : envInsertAll m ((a, b) :: rest) = envInsertAll (envInsert m a b) rest := rfl
      rw [hstep, ih]
      have hrev : ((a, b) :: rest).reverse = rest.reverse ++ [(a, b)] := by simp
      rw [hrev, lookup_append]
      cases List.lookup k rest.reverse with
      | some v => rfl
      | none =>
        rw [lookup_envInsert]
        by_cases hka : k = a
        · subst hka
          simp [List.lookup]
        · have hb : (k == a) = false := by simp [hka]
          simp [List.lookup, hb, hka]

/-- `entry().or_insert()` never changes an existing binding. -/
theorem lookup_envEntryOrInsert_of_some {m : EnvMap} {k0 v0 : String} (k v : String)
    (h : List.lookup k0 m = some v0) :
    List.lookup k0 (envEntryOrInsert m k v) = some v0 := by
  unfold envEntryOrInsert
  cases hk : List.lookup k m with
  | some _ => exact h
  | none =>
    rw [lookup_append, h]

/-- Merging file-sourced defaults never changes a binding already present in
the task-level env. -/
theorem lookup_envMergeDefaults_of_some {env : EnvMap} {k0 v0 : String}
    (merged : EnvMap) (h : List.lookup k0 env = some v0) :
    List.lookup k0 (envMergeDefaults env merged) = some v0 := by
  induction merged generalizing env with
  | nil => exact h
  | cons kv rest ih =>
    have hstep : envMergeDefaults env (kv :: rest)
        = envMergeDefaults (envEntryOrInsert env kv.1 kv.2) rest := rfl
    rw [hstep]
    exact ih (lookup_envEntryOrInsert_of_some kv.1 kv.2 h)

/-- Pointwise substitution keeps keys and rewrites the looked-up value. -/
theorem lookup_substitute_env_vars {col : Collaborators} {env : EnvMap}
    {k v : String} (h : List.lookup k env = some v) :
    List.lookup k (substitute_env_vars col env)
      = some (col.substitute_env_var k v env) := by
  unfold substitute_env_vars
  have hgen : ∀ (f : String → String → String) (l : List (String × String)),
      List.lookup k l = some v →
      List.lookup k (l.map (fun kv => (kv.1, f kv.1 kv.2))) = some (f k v) := by
    intro f l
    induction l with
    | nil => intro h0; simp [List.lookup] at h0
    | cons kv rest ih =>
      cases kv with
      | mk a b =>
        intro h0
        by_cases hka : k = a
        · subst hka
          simp only [List.lookup, beq_self_eq_true] at h0
          cases Option.some.inj h0
          simp [List.lookup]
        · have hb : (k == a) = false := by simp [hka]
          simp only [List.lookup, hb] at h0
          simp only [List.map, List.lookup, hb]
          exact ih h0
  exact hgen (fun a b => col.substitute_env_var a b env) env h

/-- Loading across an append of path lists runs the second batch from the
first batch's merged result. -/
theorem load_env_files_append {col : Collaborators} :
    ∀ {ps qs : List String} {acc mid : EnvMap},
    load_env_files col ps acc = .ok mid →
    load_env_files col (ps ++ qs) acc = load_env_files col qs mid := by
  intro ps
  induction ps with
  | nil =>
    intro qs acc mid h
    simp [load_env_files] at h
    rw [List.nil_append, h]
  | cons p rest ih =>
    intro qs acc mid h
    unfold load_env_files at h
    split at h
    · rw [List.cons_append]
      conv_lhs => unfold load_env_files
      rename_i hload
      simp only [hload]
      exact ih h
    · rename_i lines err hload
      rw [List.cons_append]
      conv_lhs => unfold load_env_files
      simp only [hload]
      split at h
      · exact absurd h (by simp)
      · exact ih h

/-- Missing env files are skipped without error and contribute nothing. -/
theorem load_env_files_all_missing {col : Collaborators} :
    ∀ {ps : List String} {acc : EnvMap},
    (∀ p ∈ ps, col.load_env_file p = .missing) →
    load_env_files col ps acc = .ok acc := by
  intro ps
  induction ps with
  | nil =>
    intro acc _
    rfl
  | cons p rest ih =>
    intro acc hmiss
    unfold load_env_files
    simp only [hmiss p (List.mem_cons_self p rest)]
    exact ih (fun q hq => hmiss q (List.mem_cons_of_mem p hq))

/-- If some configured file exists but fails to parse, loading fails with an
`InvalidEnvFile` error. -/
theorem load_env_files_error_of_bad {col : Collaborators} :
    ∀ {ps : List String} (acc : EnvMap),
    (∃ p ∈ ps, ∃ lines msg, col.load_env_file p = .parsed lines (some msg)) →
    ∃ path err, load_env_files col ps acc = .error (.invalidEnvFile path err) := by
  intro ps
  induction ps with
  | nil =>
    intro acc hbad
    rcases hbad with ⟨p, hp, _⟩
    exact absurd hp (List.not_mem_nil p)
  | cons p rest ih =>
    intro acc hbad
    unfold load_env_files
    cases hload : col.load_env_file p with
    | missing =>
      rcases hbad with ⟨q, hq, lines, msg, hqbad⟩
      rcases List.mem_cons.mp hq with rfl | hq'
      · rw [hload] at hqbad
        exact absurd hqbad (by simp)
      · exact ih _ ⟨q, hq', lines, msg, hqbad⟩
    | parsed lines err =>
      cases err with
      | none =>
        rcases hbad with ⟨q, hq, lines', msg, hqbad⟩
        rcases List.mem_cons.mp hq with rfl | hq'
        · rw [hload] at hqbad
          have := (EnvFileContent.parsed.inj hqbad).2
          exact absurd this (by simp)
        · exact ih _ ⟨q, hq', lines', msg, hqbad⟩
      | some msg =>
        exact ⟨p, msg, rfl⟩



/-- Claim C6: across several configured env files the later file's binding wins
in the merged file map, a key declared in the task's own (token-expanded) env
keeps its task-level value through the insert-if-absent merge, and the final
env is the substitution pass over that merged mapping — so the value fed to
the final substitution for such a key is the task-declared one. -/
theorem expand_env_precedence {ctx : ExpanderContext} {col : Collaborators}
    {task : Task} {env0 m₁ : EnvMap} {files : List String} {ps : List String}
    {p : String} {lines : List (String × String)} {k v w k0 v0 : String}
    (henv0 : col.token_expand_env task = .ok env0)
    (hfiles : task.options.env_files = some files)
    (hpaths : files.map (col.resolve_env_path ctx.project.source ctx.workspace_root)
      = ps ++ [p])
    (hload : load_env_files col ps [] = .ok m₁)
    (hp : col.load_env_file p = .parsed lines Option.none)
    (hlast : List.lookup k lines.reverse = some v)
    (_hk₁ : List.lookup k m₁ = some w)
    (hk0 : List.lookup k0 env0 = some v0) :
    ∃ m₂, load_env_files col (ps ++ [p]) [] = .ok m₂ ∧
      List.lookup k m₂ = some v ∧
      List.lookup k0 (envMergeDefaults env0 m₂) = some v0 ∧
      expand_env ctx col task
        = .ok { task with env := substitute_env_vars col (envMergeDefaults env0 m₂) } ∧
      List.lookup k0 (substitute_env_vars col (envMergeDefaults env0 m₂))
        = some (col.substitute_env_var k0 v0 (envMergeDefaults env0 m₂)) := by
  have hload₂ : load_env_files col (ps ++ [p]) [] = .ok (envInsertAll m₁ lines) := by
    rw [load_env_files_append hload]
    unfold load_env_files
    simp only [hp]
    rfl
  have hlook₂ : List.lookup k (envInsertAll m₁ lines) = some v := by
    rw [lookup_envInsertAll, hlast]
  have hmerge : List.lookup k0 (envMergeDefaults env0 (envInsertAll m₁ lines)) = some v0 :=
    lookup_envMergeDefaults_of_some _ hk0
  refine ⟨envInsertAll m₁ lines, hload₂, hlook₂, hmerge, ?_,
    lookup_substitute_env_vars hmerge⟩
  unfold expand_env
  simp only [henv0, hfiles, hpaths, hload₂]

/-- Claim C8: when every configured env file is missing on disk, `expand_env`
succeeds and the files contribute nothing — the final env is exactly the
substitution pass over the token-expanded task env. -/
theorem expand_env_missing_files {ctx : ExpanderContext} {col : Collaborators}
    {task : Task} {env0 : EnvMap} {files : List String}
    (henv0 : col.token_expand_env task = .ok env0)
    (hfiles : task.options.env_files = some files)
    (hmiss : ∀ f ∈ files,
      col.load_env_file (col.resolve_env_path ctx.project.source ctx.workspace_root f)
        = .missing) :
    expand_env ctx col task = .ok { task with env := substitute_env_vars col env0 } := by
  unfold expand_env
  simp only [henv0, hfiles]
  have hall : ∀ q ∈ files.map (col.resolve_env_path ctx.project.source ctx.workspace_root),
      col.load_env_file q = .missing := by
    intro q hq
    rcases List.mem_map.mp hq with ⟨f, hf, rfl⟩
    exact hmiss f hf
  simp only [load_env_files_all_missing hall]
  rfl

/-- Claim C10: if some configured env file exists but fails to parse,
`expand_env` fails with `InvalidEnvFile`, and the error carries the task with
its env untouched — nothing from any file is merged. -/
theorem expand_env_invalid_file {ctx : ExpanderContext} {col : Collaborators}
    {task : Task} {env0 : EnvMap} {files : List String}
    (henv0 : col.token_expand_env task = .ok env0)
    (hfiles : task.options.env_files = some files)
    (hbad : ∃ f ∈ files, ∃ lines msg,
      col.load_env_file (col.resolve_env_path ctx.project.source ctx.workspace_root f)
        = .parsed lines (some msg)) :
    ∃ path err, expand_env ctx col task = .error (.invalidEnvFile path err, task) := by
  have hbad' : ∃ q ∈ files.map (col.resolve_env_path ctx.project.source ctx.workspace_root),
      ∃ lines msg, col.load_env_file q = .parsed lines (some msg) := by
    rcases hbad with ⟨f, hf, lines, msg, h⟩
    exact ⟨_, List.mem_map_of_mem _ hf, lines, msg, h⟩
  rcases load_env_files_error_of_bad [] hbad' with ⟨path, err, herr⟩
  refine ⟨path, err, ?_⟩
  unfold expand_env
  simp only [henv0, hfiles, herr]



/-- Collaborators with two parseable env files on disk. -/
def envFileCol : Collaborators :=
  { trivialCol with
    load_env_file := fun p =>
      if p = "f1" then .parsed [("K", "file1"), ("J", "j1")] Option.none
      else if p = "f2" then .parsed [("K", "file2")] Option.none
      else .missing }

/-- Task `p:e` declaring env `K=task` and both env files. -/
def taskEnvPrec : Task :=
  { baseTask "p" "e" with
    env := [("K", "task")]
    options := { okOptions with env_files := some ["f1", "f2"] } }

/-- Claim C6, witness at a concrete input. -/
theorem expand_env_precedence_witness :
    ∃ m₂, load_env_files envFileCol (["f1"] ++ ["f2"]) [] = .ok m₂ ∧
      List.lookup "K" m₂ = some "file2" ∧
      List.lookup "K" (envMergeDefaults [("K", "task")] m₂) = some "task" ∧
      expand_env ctxAB envFileCol taskEnvPrec
        = .ok { taskEnvPrec with
            env := substitute_env_vars envFileCol (envMergeDefaults [("K", "task")] m₂) } ∧
      List.lookup "K" (substitute_env_vars envFileCol (envMergeDefaults [("K", "task")] m₂))
        = some (envFileCol.substitute_env_var "K" "task" (envMergeDefaults [("K", "task")] m₂)) :=
  expand_env_precedence
    (show envFileCol.token_expand_env taskEnvPrec = .ok [("K", "task")] from rfl)
    (show taskEnvPrec.options.env_files = some ["f1", "f2"] from rfl)
    (show ["f1", "f2"].map
        (envFileCol.resolve_env_path ctxAB.project.source ctxAB.workspace_root)
      = ["f1"] ++ ["f2"] from rfl)
    (show load_env_files envFileCol ["f1"] [] = .ok [("J", "j1"), ("K", "file1")] from rfl)
    (show envFileCol.load_env_file "f2" = .parsed [("K", "file2")] Option.none from rfl)
    (show List.lookup "K" ([("K", "file2")] : EnvMap).reverse = some "file2" from rfl)
    (show List.lookup "K" ([("J", "j1"), ("K", "file1")] : EnvMap) = some "file1" from rfl)
    (show List.lookup "K" ([("K", "task")] : EnvMap) = some "task" from rfl)

/-- Task `p:m` declaring one env file that does not exist. -/
def taskEnvMissing : Task :=
  { baseTask "p" "m" with
    env := [("A", "1")]
    options := { okOptions with env_files := some ["nope"] } }

/-- Claim C8, witness at a concrete input. -/
theorem expand_env_missing_files_witness :
    expand_env ctxAB trivialCol taskEnvMissing
      = .ok { taskEnvMissing with env := substitute_env_vars trivialCol [("A", "1")] } :=
  expand_env_missing_files
    (show trivialCol.token_expand_env taskEnvMissing = .ok [("A", "1")] from rfl)
    (show taskEnvMissing.options.env_files = some ["nope"] from rfl)
    (fun _ _ => rfl)

/-- Collaborators with one existing but malformed env file. -/
def badFileCol : Collaborators :=
  { trivialCol with
    load_env_file := fun p =>
      if p = "bad" then .parsed [("X", "1")] (some "parse error") else .missing }

/-- Task `p:n` declaring the malformed env file. -/
def taskEnvBad : Task :=
  { baseTask "p" "n" with
    env := [("B", "2")]
    options := { okOptions with env_files := some ["bad"] } }

/-- Claim C10, witness at a concrete input. -/
theorem expand_env_invalid_file_witness :
    ∃ path err, expand_env ctxAB badFileCol taskEnvBad
      = .error (.invalidEnvFile path err, taskEnvBad) :=
  expand_env_invalid_file
    (show badFileCol.token_expand_env taskEnvBad = .ok [("B", "2")] from rfl)
    (show taskEnvBad.options.env_files = some ["bad"] from rfl)
    ⟨"bad", List.mem_cons_self _ _, [("X", "1")], "parse error", rfl⟩




/-- The literal-file reconciliation loop never touches the glob sets. -/
theorem reconcile_output_files_globs_eq (files : List String) (task : Task) :
    (reconcile_output_files files task).input_globs = task.input_globs ∧
    (reconcile_output_files files task).output_globs = task.output_globs := by
  induction files generalizing task with
  | nil => exact ⟨rfl, rfl⟩
  | cons f rest ih =>
    have hstep : reconcile_output_files (f :: rest) task
        = reconcile_output_files rest
          (let t' := if f ∈ task.input_files
            then { task with input_files := task.input_files.erase f } else task
           { t' with output_files := insert f t'.output_files }) := rfl
    rw [hstep]
    by_cases hf : f ∈ task.input_files
    · simp only [if_pos hf]
      exact ih _
    · simp only [if_neg hf]
      exact ih _

/-- The glob reconciliation loop never touches the file sets. -/
theorem reconcile_output_globs_files_eq (globs : List String) (task : Task) :
    (reconcile_output_globs globs task).input_files = task.input_files ∧
    (reconcile_output_globs globs task).output_files = task.output_files := by
  induction globs generalizing task with
  | nil => exact ⟨rfl, rfl⟩
  | cons g rest ih =>
    have hstep : reconcile_output_globs (g :: rest) task
        = reconcile_output_globs rest
          (let t' := if g ∈ task.input_globs
            then { task with input_globs := task.input_globs.erase g } else task
           { t' with output_globs := insert g t'.output_globs }) := rfl
    rw [hstep]
    by_cases hg : g ∈ task.input_globs
    · simp only [if_pos hg]
      exact ih _
    · simp only [if_neg hg]
      exact ih _

/-- File reconciliation keeps the input and output file sets disjoint. -/
theorem reconcile_output_files_disjoint (files : List String) (task : Task)
    (h : Disjoint task.input_files task.output_files) :
    Disjoint (reconcile_output_files files task).input_files
      (reconcile_output_files files task).output_files := by
  induction files generalizing task with
  | nil => exact h
  | cons f rest ih =>
    have hstep : reconcile_output_files (f :: rest) task
        = reconcile_output_files rest
          (let t' := if f ∈ task.input_files
            then { task with input_files := task.input_files.erase f } else task
           { t' with output_files := insert f t'.output_files }) := rfl
    rw [hstep]
    by_cases hf : f ∈ task.input_files
    · simp only [if_pos hf]
      refine ih _ ?_
      simp only
      rw [Finset.disjoint_insert_right]
      exact ⟨Finset.not_mem_erase f task.input_files,
        Finset.disjoint_of_subset_left (Finset.erase_subset f task.input_files) h⟩
    · simp only [if_neg hf]
      refine ih _ ?_
      simp only
      rw [Finset.disjoint_insert_right]
      exact ⟨hf, h⟩

/-- Glob reconciliation keeps the input and output glob sets disjoint. -/
theorem reconcile_output_globs_disjoint (globs : List String) (task : Task)
    (h : Disjoint task.input_globs task.output_globs) :
    Disjoint (reconcile_output_globs globs task).input_globs
      (reconcile_output_globs globs task).output_globs := by
  induction globs generalizing task with
  | nil => exact h
  | cons g rest ih =>
    have hstep : reconcile_output_globs (g :: rest) task
        = reconcile_output_globs rest
          (let t' := if g ∈ task.input_globs
            then { task with input_globs := task.input_globs.erase g } else task
           { t' with output_globs := insert g t'.output_globs }) := rfl
    rw [hstep]
    by_cases hg : g ∈ task.input_globs
    · simp only [if_pos hg]
      refine ih _ ?_
      simp only
      rw [Finset.disjoint_insert_right]
      exact ⟨Finset.not_mem_erase g task.input_globs,
        Finset.disjoint_of_subset_left (Finset.erase_subset g task.input_globs) h⟩
    · simp only [if_neg hg]
      refine ih _ ?_
      simp only
      rw [Finset.disjoint_insert_right]
      exact ⟨hg, h⟩

/-- Claim C4: starting from empty output sets, a successful `expand_outputs`
leaves `input_files` disjoint from `output_files` and `input_globs` disjoint
from `output_globs`. -/
theorem expand_outputs_disjoint {col : Collaborators} {task task' : Task}
    (hf : task.output_files = ∅) (hg : task.output_globs = ∅)
    (h : expand_outputs col task = .ok task') :
    task'.input_files ∩ task'.output_files = ∅ ∧
    task'.input_globs ∩ task'.output_globs = ∅ := by
  unfold expand_outputs at h
  split at h
  · cases Except.ok.inj h
    rw [hf, hg]
    exact ⟨Finset.inter_empty _, Finset.inter_empty _⟩
  · split at h
    · exact absurd h (by simp)
    · rename_i result hres
      cases Except.ok.inj h
      have hfiles := reconcile_output_globs_files_eq result.globs
        (reconcile_output_files result.files task)
      have hglobs := reconcile_output_files_globs_eq result.files task
      constructor
      · rw [← Finset.disjoint_iff_inter_eq_empty, hfiles.1, hfiles.2]
        refine reconcile_output_files_disjoint result.files task ?_
        rw [hf]
        exact Finset.disjoint_empty_right _
      · rw [← Finset.disjoint_iff_inter_eq_empty]
        refine reconcile_output_globs_disjoint result.globs _ ?_
        rw [hglobs.1, hglobs.2, hg]
        exact Finset.disjoint_empty_right _



/-- Collaborators whose output expansion yields one file and one glob. -/
def outCol : Collaborators :=
  { trivialCol with
    token_expand_outputs := fun _ => .ok { env := [], files := ["gen"], globs := ["g1"] } }

/-- Task `p:o` whose inputs overlap the expanded outputs. -/
def taskOut : Task :=
  { baseTask "p" "o" with
    outputs := ["out-pattern"]
    input_files := {"gen", "keep"}
    input_globs := {"g1", "g2"} }

/-- Task `p:o` after outputs expansion. -/
def taskOutResolved : Task :=
  { taskOut with
    input_files := {"keep"}
    output_files := {"gen"}
    input_globs := {"g2"}
    output_globs := {"g1"} }

/-- Claim C4, witness at a concrete input. -/
theorem expand_outputs_disjoint_witness :
    taskOutResolved.input_files ∩ taskOutResolved.output_files = ∅ ∧
    taskOutResolved.input_globs ∩ taskOutResolved.output_globs = ∅ :=
  expand_outputs_disjoint
    (show taskOut.output_files = ∅ from rfl)
    (show taskOut.output_globs = ∅ from rfl)
    (show expand_outputs outCol taskOut = .ok taskOutResolved from rfl)

/-- Claim C7: with the Token Expander's args path behaving as the spec models
it (placeholder resolution followed by the Environment Substitutor over the
task's current env), `expand_args` is a no-op on empty args and otherwise
writes back exactly the substituted, placeholder-resolved arguments. -/
theorem expand_args_token_then_subst {col : Collaborators} {task : Task}
    (resolvePlaceholders : String → String)
    (htok : col.token_expand_args
      = fun t => Except.ok (specTokenArgs col resolvePlaceholders t.env t.args)) :
    (task.args = [] → expand_args col task = .ok task) ∧
    specTokenArgs col resolvePlaceholders task.env task.args
      = task.args.map (fun arg => col.substitute_env_var "" (resolvePlaceholders arg) task.env) ∧
    (task.args ≠ [] → expand_args col task
      = .ok { task with args := specTokenArgs col resolvePlaceholders task.env task.args }) := by
  refine ⟨?_, rfl, ?_⟩
  · intro hnil
    unfold expand_args
    rw [hnil]
    rfl
  · intro hne
    unfold expand_args
    have hempty : task.args.isEmpty = false := by
      cases harg : task.args with
      | nil => exact absurd harg hne
      | cons a l => rfl
    simp only [hempty, Bool.false_eq_true, if_false]
    rw [htok]

/-- Collaborators whose args expansion follows the spec-modelled token path. -/
def argsCol : Collaborators :=
  { trivialCol with
    token_expand_args := fun t =>
      Except.ok (specTokenArgs trivialCol (fun s => s) t.env t.args) }

/-- Task `p:r` with two raw args. -/
def taskArgsTwo : Task :=
  { baseTask "p" "r" with
    args := ["$X", "y"]
    env := [("X", "1")] }

/-- Claim C7, witness at a concrete input. -/
theorem expand_args_token_then_subst_witness :
    expand_args argsCol taskArgsTwo
      = .ok { taskArgsTwo with
          args := specTokenArgs argsCol (fun s => s) taskArgsTwo.env taskArgsTwo.args } :=
  (expand_args_token_then_subst (fun s => s) rfl).2.2 (by decide)


end Moon
